import Mathlib

/-!
Verification of the graphql-egghead repository's specified core: the
Relay-style global-identity scheme (base64 global ids, node fetching,
structural type resolution) and the cursor-based connection pager.

The pagination algorithm and the global-id codec live in the external
`graphql-relay` package, which is not part of the repository's sources;
following the specification, those operations are modelled here from the
spec's own algorithm (doc comments say `Modelled from the spec:`).  The
resolvers that ARE in the repository — the `totalCount` resolver of
`VideoConnection`, the `idFetcher` and `typeResolver` of
`src/src/node.js` — are embedded directly from the source.
-/

/-! ## Base64 over byte lists

Modelled from the spec: global ids are "base64 of `TypeName:local_id`"
and cursors are "base64 of the zero-based offset".  Bytes are `Nat`s
below 256; the encoder emits the standard alphabet with `=` padding. -/

def b64Alphabet : List Char :=
  "ABCDEFGHIJKLMNOPQRSTUVWXYZabcdefghijklmnopqrstuvwxyz0123456789+/".data

/-- Character of the standard base64 alphabet for a sixtet value. -/
def b64Char (n : Nat) : Char := b64Alphabet.getD n 'A'

/-- Index of a character in the base64 alphabet, `none` if absent. -/
def b64CharIdx (c : Char) : Option Nat :=
  b64Alphabet.indexOf? c

/-- Modelled from the spec: standard base64 encoding of a byte list
(three bytes become four sixtets, with `=` padding at the end). -/
def b64EncodeBytes : List Nat → List Char
  | [] => []
  | [a] => [b64Char (a / 4), b64Char (a % 4 * 16), '=', '=']
  | [a, b] => [b64Char (a / 4), b64Char (a % 4 * 16 + b / 16), b64Char (b % 16 * 4), '=']
  | a :: b :: c :: rest =>
      b64Char (a / 4) :: b64Char (a % 4 * 16 + b / 16) ::
      b64Char (b % 16 * 4 + c / 64) :: b64Char (c % 64) :: b64EncodeBytes rest

/-- Decode a final base64 quartet, honouring `=` padding. -/
def b64DecodeLastQuad (c0 c1 c2 c3 : Char) : Option (List Nat) :=
  if c2 = '=' ∧ c3 = '=' then
    match b64CharIdx c0, b64CharIdx c1 with
    | some s0, some s1 => some [s0 * 4 + s1 / 16]
    | _, _ => none
  else if c3 = '=' then
    match b64CharIdx c0, b64CharIdx c1, b64CharIdx c2 with
    | some s0, some s1, some s2 => some [s0 * 4 + s1 / 16, s1 % 16 * 16 + s2 / 4]
    | _, _, _ => none
  else
    match b64CharIdx c0, b64CharIdx c1, b64CharIdx c2, b64CharIdx c3 with
    | some s0, some s1, some s2, some s3 =>
        some [s0 * 4 + s1 / 16, s1 % 16 * 16 + s2 / 4, s2 % 4 * 64 + s3]
    | _, _, _, _ => none

/-- Raw base64 decoding of a character list (quartet by quartet). -/
def b64DecodeRaw : List Char → Option (List Nat)
  | [] => some []
  | [_] => none
  | [_, _] => none
  | [_, _, _] => none
  | c0 :: c1 :: c2 :: c3 :: rest =>
      match rest with
      | [] => b64DecodeLastQuad c0 c1 c2 c3
      | _ :: _ =>
        match b64CharIdx c0, b64CharIdx c1, b64CharIdx c2, b64CharIdx c3,
              b64DecodeRaw rest with
        | some s0, some s1, some s2, some s3, some bs =>
            some ((s0 * 4 + s1 / 16) :: (s1 % 16 * 16 + s2 / 4) :: (s2 % 4 * 64 + s3) :: bs)
        | _, _, _, _, _ => none

/-- Base64 decoding that accepts only canonical encodings: the raw
decode must re-encode to the input. -/
def b64DecodeChecked (l : List Char) : Option (List Nat) :=
  (b64DecodeRaw l).bind (fun bs => if b64EncodeBytes bs = l then some bs else none)

theorem b64CharIdx_b64Char : ∀ n : Nat, n < 64 → b64CharIdx (b64Char n) = some n := by
  decide

theorem b64Char_ne_pad : ∀ n : Nat, n < 64 → b64Char n ≠ '=' := by
  decide

theorem b64EncodeBytes_ne_nil (a : Nat) (l : List Nat) :
    b64EncodeBytes (a :: l) ≠ [] := by
  match l with
  | [] => simp [b64EncodeBytes]
  | [b] => simp [b64EncodeBytes]
  | b :: c :: rest => simp [b64EncodeBytes]

theorem b64DecodeRaw_encode :
    ∀ bs : List Nat, (∀ x ∈ bs, x < 256) →
      b64DecodeRaw (b64EncodeBytes bs) = some bs := by
  intro bs
  induction bs using b64EncodeBytes.induct with
  | case1 =>
    intro _
    simp [b64EncodeBytes, b64DecodeRaw]
  | case2 a =>
    intro h
    have ha : a < 256 := h a (by simp)
    have h0 : a / 4 < 64 := by omega
    have h1 : a % 4 * 16 < 64 := by omega
    simp [b64EncodeBytes, b64DecodeRaw, b64DecodeLastQuad,
      b64CharIdx_b64Char _ h0, b64CharIdx_b64Char _ h1]
    omega
  | case3 a b =>
    intro h
    have ha : a < 256 := h a (by simp)
    have hb : b < 256 := h b (by simp)
    have h0 : a / 4 < 64 := by omega
    have h1 : a % 4 * 16 + b / 16 < 64 := by omega
    have h2 : b % 16 * 4 < 64 := by omega
    simp [b64EncodeBytes, b64DecodeRaw, b64DecodeLastQuad,
      b64CharIdx_b64Char _ h0, b64CharIdx_b64Char _ h1, b64CharIdx_b64Char _ h2,
      b64Char_ne_pad _ h2]
    constructor
    · omega
    · omega
  | case4 a b c rest ih =>
    intro h
    have ha : a < 256 := h a (by simp)
    have hb : b < 256 := h b (by simp)
    have hc : c < 256 := h c (by simp)
    have h0 : a / 4 < 64 := by omega
    have h1 : a % 4 * 16 + b / 16 < 64 := by omega
    have h2 : b % 16 * 4 + c / 64 < 64 := by omega
    have h3 : c % 64 < 64 := by omega
    have hrest : b64DecodeRaw (b64EncodeBytes rest) = some rest :=
      ih (fun x hx => h x (by simp [hx]))
    match rest with
    | [] =>
      simp [b64EncodeBytes, b64DecodeRaw, b64DecodeLastQuad,
        b64CharIdx_b64Char _ h0, b64CharIdx_b64Char _ h1, b64CharIdx_b64Char _ h2,
        b64CharIdx_b64Char _ h3, b64Char_ne_pad _ h2, b64Char_ne_pad _ h3]
      refine ⟨by omega, by omega, by omega⟩
    | r0 :: rtail =>
      have hnn : b64EncodeBytes (r0 :: rtail) ≠ [] := b64EncodeBytes_ne_nil _ _
      match hEnc : b64EncodeBytes (r0 :: rtail) with
      | [] => exact absurd hEnc hnn
      | e0 :: etail =>
        rw [hEnc] at hrest
        simp [b64EncodeBytes, b64DecodeRaw, hEnc, hrest,
          b64CharIdx_b64Char _ h0, b64CharIdx_b64Char _ h1, b64CharIdx_b64Char _ h2,
          b64CharIdx_b64Char _ h3]
        refine ⟨by omega, by omega, by omega⟩

theorem b64DecodeChecked_encode (bs : List Nat) (h : ∀ x ∈ bs, x < 256) :
    b64DecodeChecked (b64EncodeBytes bs) = some bs := by
  simp [b64DecodeChecked, b64DecodeRaw_encode bs h]

theorem b64DecodeChecked_some {l : List Char} {bs : List Nat}
    (h : b64DecodeChecked l = some bs) : b64EncodeBytes bs = l := by
  unfold b64DecodeChecked at h
  match hraw : b64DecodeRaw l with
  | none => rw [hraw] at h; simp at h
  | some bs' =>
    rw [hraw] at h
    by_cases he : b64EncodeBytes bs' = l
    · simp [he] at h
      subst h
      exact he
    · simp [he] at h

/-! ## UTF-8 byte representation of strings

Modelled from the spec: the "base64 of `TypeName:local_id`" encoding
operates on the UTF-8 bytes of the joined string, so the byte
representation of a character list is embedded here as well. -/

/-- Standard UTF-8 encoding of a single code point. -/
def charUtf8 (n : Nat) : List Nat :=
  if n < 128 then [n]
  else if n < 2048 then [192 + n / 64, 128 + n % 64]
  else if n < 65536 then [224 + n / 4096, 128 + n / 64 % 64, 128 + n % 64]
  else [240 + n / 262144, 128 + n / 4096 % 64, 128 + n / 64 % 64, 128 + n % 64]

/-- UTF-8 bytes of a character list. -/
def strUtf8 : List Char → List Nat
  | [] => []
  | c :: r => charUtf8 c.toNat ++ strUtf8 r

/-- Consume `k` UTF-8 continuation bytes, accumulating the code point. -/
def utf8Cont : Nat → Nat → List Nat → Option (Nat × List Nat)
  | 0, p, rest => some (p, rest)
  | k+1, p, rest =>
    match rest with
    | b1 :: r => if 128 ≤ b1 ∧ b1 < 192 then utf8Cont k (p * 64 + (b1 - 128)) r else none
    | [] => none

/-- Decode one UTF-8 code point from the front of a byte list. -/
def utf8DecodeOne (bs : List Nat) : Option (Nat × List Nat) :=
  match bs with
  | [] => none
  | b :: rest =>
    if b < 128 then some (b, rest)
    else if b < 192 then none
    else if b < 224 then utf8Cont 1 (b - 192) rest
    else if b < 240 then utf8Cont 2 (b - 224) rest
    else if b < 248 then utf8Cont 3 (b - 240) rest
    else none

theorem utf8Cont_length : ∀ (k p : Nat) (rest : List Nat) (n : Nat) (r : List Nat),
    utf8Cont k p rest = some (n, r) → r.length ≤ rest.length := by
  intro k
  induction k with
  | zero =>
    intro p rest n r h
    simp [utf8Cont] at h
    rw [h.2]
  | succ k ih =>
    intro p rest n r h
    match rest with
    | [] => simp [utf8Cont] at h
    | b1 :: r' =>
      simp only [utf8Cont] at h
      by_cases hc : 128 ≤ b1 ∧ b1 < 192
      · rw [if_pos hc] at h
        have := ih _ _ _ _ h
        simp
        omega
      · rw [if_neg hc] at h
        simp at h

theorem utf8DecodeOne_length {bs : List Nat} {n : Nat} {r : List Nat}
    (h : utf8DecodeOne bs = some (n, r)) : r.length < bs.length := by
  match bs with
  | [] => simp [utf8DecodeOne] at h
  | b :: rest =>
    simp only [utf8DecodeOne] at h
    by_cases h1 : b < 128
    · rw [if_pos h1] at h
      simp at h
      rw [h.2]
      simp
    · rw [if_neg h1] at h
      by_cases h2 : b < 192
      · rw [if_pos h2] at h; simp at h
      · rw [if_neg h2] at h
        by_cases h3 : b < 224
        · rw [if_pos h3] at h
          have := utf8Cont_length _ _ _ _ _ h
          simp
          omega
        · rw [if_neg h3] at h
          by_cases h4 : b < 240
          · rw [if_pos h4] at h
            have := utf8Cont_length _ _ _ _ _ h
            simp
            omega
          · rw [if_neg h4] at h
            by_cases h5 : b < 248
            · rw [if_pos h5] at h
              have := utf8Cont_length _ _ _ _ _ h
              simp
              omega
            · rw [if_neg h5] at h
              simp at h

/-- Raw UTF-8 decoding with a structural fuel bound, so that the
function reduces definitionally. -/
def utf8PointsAux : List Nat → Nat → Option (List Nat)
  | [], _ => some []
  | _ :: _, 0 => none
  | b :: rest, fuel+1 =>
    match utf8DecodeOne (b :: rest) with
    | none => none
    | some (n, r) => (utf8PointsAux r fuel).map (n :: ·)

/-- Raw UTF-8 decoding into a list of code points. -/
def utf8DecodePoints (bs : List Nat) : Option (List Nat) :=
  utf8PointsAux bs bs.length

theorem utf8PointsAux_congr :
    ∀ (f1 : Nat) (bs : List Nat) (f2 : Nat), bs.length ≤ f1 → bs.length ≤ f2 →
      utf8PointsAux bs f1 = utf8PointsAux bs f2 := by
  intro f1
  induction f1 with
  | zero =>
    intro bs f2 h1 h2
    have : bs = [] := List.length_eq_zero.mp (by omega)
    subst this
    cases f2 with
    | zero => rfl
    | succ f2 => rfl
  | succ f1 ih =>
    intro bs f2 h1 h2
    match bs with
    | [] =>
      cases f2 with
      | zero => rfl
      | succ f2 => rfl
    | b :: rest =>
      cases f2 with
      | zero => simp at h2
      | succ f2 =>
        simp only [utf8PointsAux]
        cases hone : utf8DecodeOne (b :: rest) with
        | none => rfl
        | some p =>
          obtain ⟨n, r⟩ := p
          have hlt := utf8DecodeOne_length hone
          simp only [List.length_cons] at hlt h1 h2
          show (utf8PointsAux r f1).map (n :: ·) = (utf8PointsAux r f2).map (n :: ·)
          rw [ih r f2 (by omega) (by omega)]

/-- UTF-8 decoding that accepts only canonical encodings: decoded code
points must re-encode to the input bytes. -/
def utf8DecodeChecked (bs : List Nat) : Option (List Char) :=
  (utf8DecodePoints bs).bind (fun ps =>
    let cs := ps.map Char.ofNat
    if strUtf8 cs = bs then some cs else none)

theorem char_toNat_lt (c : Char) : c.toNat < 1114112 := by
  have h := c.valid
  rcases h with h | h
  · exact Nat.lt_trans h (by omega)
  · exact h.2

theorem charUtf8_lt256 (n : Nat) (hn : n < 1114112) :
    ∀ x ∈ charUtf8 n, x < 256 := by
  intro x hx
  unfold charUtf8 at hx
  by_cases h1 : n < 128
  · simp [h1] at hx
    omega
  · by_cases h2 : n < 2048
    · simp [h1, h2] at hx
      omega
    · by_cases h3 : n < 65536
      · simp [h1, h2, h3] at hx
        omega
      · simp [h1, h2, h3] at hx
        omega

theorem strUtf8_lt256 (l : List Char) : ∀ x ∈ strUtf8 l, x < 256 := by
  induction l with
  | nil => intro x hx; simp [strUtf8] at hx
  | cons c r ih =>
    intro x hx
    simp only [strUtf8, List.mem_append] at hx
    rcases hx with hx | hx
    · exact charUtf8_lt256 c.toNat (char_toNat_lt c) x hx
    · exact ih x hx

theorem utf8DecodePoints_nil : utf8DecodePoints [] = some [] := rfl

theorem utf8DecodePoints_of_one {bs : List Nat} {n : Nat} {r : List Nat}
    (hne : bs ≠ []) (hone : utf8DecodeOne bs = some (n, r)) :
    utf8DecodePoints bs = (utf8DecodePoints r).map (n :: ·) := by
  match bs with
  | [] => exact absurd rfl hne
  | b :: rest =>
    have hlt := utf8DecodeOne_length hone
    simp only [List.length_cons] at hlt
    show utf8PointsAux (b :: rest) (b :: rest).length = _
    simp only [List.length_cons, utf8PointsAux, hone]
    rw [utf8PointsAux_congr rest.length r r.length (by omega) (Nat.le_refl _)]
    rfl

theorem utf8DecodeOne_charUtf8 (n : Nat) (hn : n < 1114112) (r : List Nat) :
    utf8DecodeOne (charUtf8 n ++ r) = some (n, r) := by
  by_cases h1 : n < 128
  · simp [charUtf8, h1, utf8DecodeOne]
  · by_cases h2 : n < 2048
    · have b0 : ¬(192 + n / 64 < 128) := by omega
      have b0' : ¬(192 + n / 64 < 192) := by omega
      have b0'' : 192 + n / 64 < 224 := by omega
      have b1 : 128 ≤ 128 + n % 64 ∧ 128 + n % 64 < 192 := by omega
      simp only [charUtf8, if_neg h1, if_pos h2, List.cons_append, List.nil_append,
        utf8DecodeOne, if_neg b0, if_neg b0', if_pos b0'', utf8Cont, if_pos b1]
      have e : (192 + n / 64 - 192) * 64 + (128 + n % 64 - 128) = n := by omega
      rw [e]
    · by_cases h3 : n < 65536
      · have b0 : ¬(224 + n / 4096 < 128) := by omega
        have b0' : ¬(224 + n / 4096 < 192) := by omega
        have b0'' : ¬(224 + n / 4096 < 224) := by omega
        have b0''' : 224 + n / 4096 < 240 := by omega
        have bc1 : 128 ≤ 128 + n / 64 % 64 ∧ 128 + n / 64 % 64 < 192 := by omega
        have bc2 : 128 ≤ 128 + n % 64 ∧ 128 + n % 64 < 192 := by omega
        simp only [charUtf8, if_neg h1, if_neg h2, if_pos h3, List.cons_append,
          List.nil_append, utf8DecodeOne, if_neg b0, if_neg b0', if_neg b0'',
          if_pos b0''', utf8Cont, if_pos bc1, if_pos bc2]
        have e : ((224 + n / 4096 - 224) * 64 + (128 + n / 64 % 64 - 128)) * 64 +
            (128 + n % 64 - 128) = n := by omega
        rw [e]
      · have b0 : ¬(240 + n / 262144 < 128) := by omega
        have b0' : ¬(240 + n / 262144 < 192) := by omega
        have b0'' : ¬(240 + n / 262144 < 224) := by omega
        have b0''' : ¬(240 + n / 262144 < 240) := by omega
        have b0'''' : 240 + n / 262144 < 248 := by omega
        have bc1 : 128 ≤ 128 + n / 4096 % 64 ∧ 128 + n / 4096 % 64 < 192 := by omega
        have bc2 : 128 ≤ 128 + n / 64 % 64 ∧ 128 + n / 64 % 64 < 192 := by omega
        have bc3 : 128 ≤ 128 + n % 64 ∧ 128 + n % 64 < 192 := by omega
        simp only [charUtf8, if_neg h1, if_neg h2, if_neg h3, List.cons_append,
          List.nil_append, utf8DecodeOne, if_neg b0, if_neg b0', if_neg b0'',
          if_neg b0''', if_pos b0'''', utf8Cont, if_pos bc1, if_pos bc2, if_pos bc3]
        have e : (((240 + n / 262144 - 240) * 64 + (128 + n / 4096 % 64 - 128)) * 64 +
            (128 + n / 64 % 64 - 128)) * 64 + (128 + n % 64 - 128) = n := by omega
        rw [e]

theorem charUtf8_ne_nil (n : Nat) : charUtf8 n ≠ [] := by
  unfold charUtf8
  by_cases h1 : n < 128
  · simp [h1]
  · by_cases h2 : n < 2048
    · simp [h1, h2]
    · by_cases h3 : n < 65536
      · simp [h1, h2, h3]
      · simp [h1, h2, h3]

theorem utf8DecodePoints_charUtf8 (n : Nat) (hn : n < 1114112) (r : List Nat) :
    utf8DecodePoints (charUtf8 n ++ r) = (utf8DecodePoints r).map (n :: ·) := by
  have hne : charUtf8 n ++ r ≠ [] := by
    intro hc
    exact charUtf8_ne_nil n (List.append_eq_nil.mp hc).1
  exact utf8DecodePoints_of_one hne (utf8DecodeOne_charUtf8 n hn r)

theorem utf8DecodePoints_strUtf8 (l : List Char) :
    utf8DecodePoints (strUtf8 l) = some (l.map Char.toNat) := by
  induction l with
  | nil => simpa [strUtf8] using utf8DecodePoints_nil
  | cons c r ih =>
    simp [strUtf8, utf8DecodePoints_charUtf8 c.toNat (char_toNat_lt c), ih]

theorem utf8DecodeChecked_strUtf8 (l : List Char) :
    utf8DecodeChecked (strUtf8 l) = some l := by
  have hmap : (l.map Char.toNat).map Char.ofNat = l := by
    rw [List.map_map]
    have : (Char.ofNat ∘ Char.toNat) = id := by
      funext c
      simp [Function.comp, Char.ofNat_toNat]
    rw [this, List.map_id]
  simp [utf8DecodeChecked, utf8DecodePoints_strUtf8, hmap]

theorem utf8DecodeChecked_some {bs : List Nat} {cs : List Char}
    (h : utf8DecodeChecked bs = some cs) : strUtf8 cs = bs := by
  unfold utf8DecodeChecked at h
  match hraw : utf8DecodePoints bs with
  | none => rw [hraw] at h; simp at h
  | some ps =>
    rw [hraw] at h
    by_cases he : strUtf8 (ps.map Char.ofNat) = bs
    · simp only [Option.some_bind, if_pos he] at h
      cases h
      exact he
    · simp [he] at h

theorem strUtf8_injective {l1 l2 : List Char} (h : strUtf8 l1 = strUtf8 l2) :
    l1 = l2 := by
  have h1 := utf8DecodePoints_strUtf8 l1
  have h2 := utf8DecodePoints_strUtf8 l2
  rw [h, h2] at h1
  have hmaps : l1.map Char.toNat = l2.map Char.toNat := by
    injection h1 with h1
    exact h1.symm
  have hinj : Function.Injective Char.toNat := fun a b hab => by
    rw [← Char.ofNat_toNat a, ← Char.ofNat_toNat b, hab]
  exact List.map_injective_iff.mpr hinj hmaps

/-! ## The global-id codec

Modelled from the spec: `encode(type_name, local_id)` is the base64 of
`"TypeName:local_id"`; `decode` reverses it, failing with
`MalformedIdentifier` when the input is not validly encoded (bad
encoding or missing separator).  Decoding is total: every string yields
either a typed failure or a pair, never an unhandled fault. -/

/-- Split a character list at the first colon. -/
def splitCharList : List Char → Option (List Char × List Char)
  | [] => none
  | c :: r =>
      if c = ':' then some ([], r)
      else (splitCharList r).map (fun p => (c :: p.1, p.2))

theorem splitCharList_append (t i : List Char) (h : ':' ∉ t) :
    splitCharList (t ++ ':' :: i) = some (t, i) := by
  induction t with
  | nil => simp [splitCharList]
  | cons c r ih =>
    have hc : c ≠ ':' := by
      intro hc
      exact h (by simp [hc])
    have hr : ':' ∉ r := by
      intro hr
      exact h (by simp [hr])
    simp [splitCharList, hc, ih hr]

theorem splitCharList_some :
    ∀ (l a b : List Char), splitCharList l = some (a, b) → l = a ++ ':' :: b := by
  intro l
  induction l with
  | nil => intro a b h; simp [splitCharList] at h
  | cons c r ih =>
    intro a b h
    by_cases hc : c = ':'
    · simp only [splitCharList, if_pos hc] at h
      injection h with h
      injection h with h1 h2
      subst h1
      subst h2
      simp [hc]
    · simp only [splitCharList, if_neg hc] at h
      match hs : splitCharList r with
      | none => rw [hs] at h; simp at h
      | some p =>
        rw [hs] at h
        simp only [Option.map_some'] at h
        injection h with h
        have hr := ih p.1 p.2 (by rw [hs])
        have ha : a = c :: p.1 := by
          have := congrArg Prod.fst h
          simpa using this.symm
        have hb : b = p.2 := by
          have := congrArg Prod.snd h
          simpa using this.symm
        subst ha
        subst hb
        simp [hr]

/-- Error taxonomy of the identity resolver, from the spec. -/
inductive IdError where
  | malformedIdentifier
deriving DecidableEq

/-- Modelled from the spec: `encode(type_name, local_id)` is the base64
of the UTF-8 bytes of `"type_name:local_id"`. -/
def toGlobalId (t i : String) : String :=
  String.mk (b64EncodeBytes (strUtf8 (t.data ++ ':' :: i.data)))

/-- Decoded `(type, id)` character lists of a global id, if valid. -/
def globalIdParts (g : String) : Option (List Char × List Char) :=
  (b64DecodeChecked g.data).bind (fun bs =>
    (utf8DecodeChecked bs).bind (fun cs => splitCharList cs))

/-- Modelled from the spec: `decode(global_id)` reverses `toGlobalId`,
yielding `MalformedIdentifier` for any string that is not validly
encoded (bad base64, bad UTF-8, or missing `:` separator). -/
def fromGlobalId (g : String) : Except IdError (String × String) :=
  match globalIdParts g with
  | none => .error .malformedIdentifier
  | some p => .ok (String.mk p.1, String.mk p.2)

theorem strMk_data (s : String) : String.mk s.data = s := rfl

theorem globalIdParts_toGlobalId (t i : String) (h : ':' ∉ t.data) :
    globalIdParts (toGlobalId t i) = some (t.data, i.data) := by
  unfold globalIdParts toGlobalId
  rw [show (String.mk (b64EncodeBytes (strUtf8 (t.data ++ ':' :: i.data)))).data =
    b64EncodeBytes (strUtf8 (t.data ++ ':' :: i.data)) from rfl]
  rw [b64DecodeChecked_encode _ (strUtf8_lt256 _), Option.some_bind]
  rw [utf8DecodeChecked_strUtf8, Option.some_bind]
  rw [splitCharList_append _ _ h]

theorem fromGlobalId_toGlobalId (t i : String) (h : ':' ∉ t.data) :
    fromGlobalId (toGlobalId t i) = .ok (t, i) := by
  unfold fromGlobalId
  rw [globalIdParts_toGlobalId t i h]

theorem fromGlobalId_ok {g : String} {t i : String}
    (h : fromGlobalId g = .ok (t, i)) : g = toGlobalId t i := by
  unfold fromGlobalId at h
  match hg : globalIdParts g with
  | none => rw [hg] at h; simp at h
  | some p =>
    rw [hg] at h
    injection h with h
    have ht : t = String.mk p.1 := by
      have := congrArg Prod.fst h
      simpa using this.symm
    have hi : i = String.mk p.2 := by
      have := congrArg Prod.snd h
      simpa using this.symm
    unfold globalIdParts at hg
    rcases Option.bind_eq_some.mp hg with ⟨bs, hb, hrest⟩
    rcases Option.bind_eq_some.mp hrest with ⟨cs, hu, hs⟩
    have hcs : cs = p.1 ++ ':' :: p.2 := splitCharList_some cs p.1 p.2 hs
    have hbs : strUtf8 cs = bs := utf8DecodeChecked_some hu
    have hgd : b64EncodeBytes bs = g.data := b64DecodeChecked_some hb
    subst ht
    subst hi
    unfold toGlobalId
    rw [show (String.mk p.1).data = p.1 from rfl,
      show (String.mk p.2).data = p.2 from rfl]
    rw [← hcs, hbs, hgd, strMk_data]

/-! ## Offset cursors

Modelled from the spec: a cursor is the "base64 of the zero-based
offset" of an edge within the full sequence.  The offset is rendered in
decimal before being base64-encoded. -/

/-- Decimal digits with a structural fuel bound, so that the function
reduces definitionally. -/
def digitsAux : Nat → Nat → List Char
  | _, 0 => []
  | n, fuel+1 =>
    if n < 10 then [Nat.digitChar n]
    else Nat.digitChar (n % 10) :: digitsAux (n / 10) fuel

/-- Decimal digits of a natural number, least significant first. -/
def natDigitsRev (n : Nat) : List Char := digitsAux n (n + 1)

/-- Decimal rendering of a natural number. -/
def natToChars (n : Nat) : List Char := (natDigitsRev n).reverse

/-- Numeric value of a digit character. -/
def charDigitVal (c : Char) : Nat := c.toNat - 48

/-- Value of a least-significant-first digit list. -/
def digitsRevVal : List Char → Nat
  | [] => 0
  | c :: r => charDigitVal c + 10 * digitsRevVal r

theorem charDigitVal_digitChar : ∀ d : Nat, d < 10 →
    charDigitVal (Nat.digitChar d) = d := by
  decide

theorem digitsRevVal_digitsAux :
    ∀ (fuel n : Nat), n < fuel → digitsRevVal (digitsAux n fuel) = n := by
  intro fuel
  induction fuel with
  | zero => intro n hn; omega
  | succ fuel ih =>
    intro n hn
    by_cases h : n < 10
    · simp only [digitsAux, if_pos h, digitsRevVal, charDigitVal_digitChar n h]
      omega
    · have hm : n % 10 < 10 := by omega
      simp only [digitsAux, if_neg h, digitsRevVal, charDigitVal_digitChar _ hm,
        ih (n / 10) (by omega)]
      omega

theorem digitsRevVal_natDigitsRev (n : Nat) :
    digitsRevVal (natDigitsRev n) = n :=
  digitsRevVal_digitsAux (n + 1) n (Nat.lt_succ_self n)

theorem natDigitsRev_injective {a b : Nat} (h : natDigitsRev a = natDigitsRev b) :
    a = b := by
  have := congrArg digitsRevVal h
  rwa [digitsRevVal_natDigitsRev, digitsRevVal_natDigitsRev] at this

/-- Modelled from the spec: cursor for the edge at a zero-based offset,
the base64 of the decimal offset. -/
def offsetCursor (k : Nat) : String :=
  String.mk (b64EncodeBytes (strUtf8 (natToChars k)))

theorem b64EncodeBytes_injective {x y : List Nat}
    (hx : ∀ v ∈ x, v < 256) (hy : ∀ v ∈ y, v < 256)
    (h : b64EncodeBytes x = b64EncodeBytes y) : x = y := by
  have h1 := b64DecodeRaw_encode x hx
  have h2 := b64DecodeRaw_encode y hy
  rw [h, h2] at h1
  injection h1 with h1
  exact h1.symm

theorem offsetCursor_injective {a b : Nat} (h : offsetCursor a = offsetCursor b) :
    a = b := by
  unfold offsetCursor at h
  injection h with h
  have hb := b64EncodeBytes_injective (strUtf8_lt256 _) (strUtf8_lt256 _) h
  have hs := strUtf8_injective hb
  unfold natToChars at hs
  have hg := List.reverse_injective hs
  exact natDigitsRev_injective hg

/-! ## Node interface (embedded from `src/src/node.js`)

Entities are the video records served by the store: a `title`, a
`duration` and a `watched` flag, any of which may be absent.  The store
itself (`getObjectById` of `src/src/data.js`, absent from the sources)
is abstracted as a function, per the spec's `fetchById` capability. -/

structure Entity where
  title : Option String
  duration : Option Int
  watched : Option Bool
deriving DecidableEq

/-- Concrete type tags the resolver can produce (`videoType`). -/
inductive TypeTag where
  | video
deriving DecidableEq

/-- JavaScript truthiness of a possibly-absent string field: `undefined`
and the empty string are falsy, every other string is truthy. -/
def jsTruthy : Option String → Bool
  | none => false
  | some s => decide (s ≠ "")

/-- Embedded from `src/src/node.js`: the `typeResolver` returns
`videoType` when `object.title` is truthy and `null` otherwise. -/
def typeResolver (e : Entity) : Option TypeTag :=
  if jsTruthy e.title then some TypeTag.video else none

/-- Embedded from `src/src/node.js`: the `idFetcher` decodes the global
id, lower-cases the type name and delegates to the store's fetch-by-type
-and-id capability.  The decode failure of the modelled `fromGlobalId`
propagates as the typed error. -/
def idFetcher (getObjectById : String → String → Option Entity)
    (globalId : String) : Except IdError (Option Entity) :=
  match fromGlobalId globalId with
  | .error e => .error e
  | .ok p => .ok (getObjectById p.1.toLower p.2)

/-! ## Connection pager (modelled from the spec, §4.2)

`paginate` materialises the sequence, converts every element to an edge
whose cursor is the base64 of its zero-based offset, applies `after`,
`before`, `first` and `last` in that order, and reports the page flags.
The `totalCount` resolver is embedded from the repository's
`src/index.js` (`connectionDefinitions` / `VideoConnection`): it counts
`conn.edges.length` on the connection it receives. -/

structure Edge (α : Type) where
  cursor : String
  node : α
deriving DecidableEq

structure PageInfo where
  hasNextPage : Bool
  hasPreviousPage : Bool
deriving DecidableEq

structure Connection (α : Type) where
  edges : List (Edge α)
  pageInfo : PageInfo
deriving DecidableEq

/-- Pagination arguments `first`, `last`, `after`, `before`. -/
structure ConnectionArgs where
  first : Option Int
  last : Option Int
  after : Option String
  before : Option String

/-- Error taxonomy of the pager, from the spec. -/
inductive PageError where
  | invalidArgument
deriving DecidableEq

/-- Edges for a sequence, cursors starting at a given offset. -/
def edgesFrom (off : Nat) : List α → List (Edge α)
  | [] => []
  | x :: xs => Edge.mk (offsetCursor off) x :: edgesFrom (off + 1) xs

/-- Index of the first edge carrying a given cursor. -/
def matchIdx (c : String) : List (Edge α) → Option Nat
  | [] => none
  | e :: es => if e.cursor = c then some 0 else (matchIdx c es).map (· + 1)

/-- Modelled from the spec (step 3): drop all edges up to and including
the one whose cursor equals `after`; no match drops nothing.  Also
returns how many edges were dropped. -/
def applyAfter (c : String) (es : List (Edge α)) : List (Edge α) × Nat :=
  match matchIdx c es with
  | some j => (es.drop (j + 1), j + 1)
  | none => (es, 0)

/-- Modelled from the spec (step 4): drop all edges from the one whose
cursor equals `before` onward; no match drops nothing.  Also returns how
many edges were dropped. -/
def applyBefore (c : String) (es : List (Edge α)) : List (Edge α) × Nat :=
  match matchIdx c es with
  | some j => (es.take j, es.length - j)
  | none => (es, 0)

/-- Modelled from the spec (step 5): negative `first` is
`InvalidArgument`, otherwise keep the first `first` edges.  The flag
records whether edges were truncated. -/
def applyFirst : Option Int → List (Edge α) → Except PageError (List (Edge α) × Bool)
  | none, es => .ok (es, false)
  | some n, es =>
      if n < 0 then .error .invalidArgument
      else .ok (es.take n.toNat, decide (n.toNat < es.length))

/-- Modelled from the spec (step 6): negative `last` is
`InvalidArgument`, otherwise keep the last `last` edges.  The flag
records whether edges were truncated. -/
def applyLast : Option Int → List (Edge α) → Except PageError (List (Edge α) × Bool)
  | none, es => .ok (es, false)
  | some n, es =>
      if n < 0 then .error .invalidArgument
      else .ok (es.drop (es.length - n.toNat), decide (n.toNat < es.length))

/-- The `after` step applied when the argument is present. -/
def afterStep (a : Option String) (es : List (Edge α)) : List (Edge α) × Nat :=
  match a with
  | none => (es, 0)
  | some c => applyAfter c es

/-- The `before` step applied when the argument is present. -/
def beforeStep (b : Option String) (es : List (Edge α)) : List (Edge α) × Nat :=
  match b with
  | none => (es, 0)
  | some c => applyBefore c es

/-- Modelled from the spec (§4.2): the full pagination algorithm.
`hasPreviousPage` is true when `last` truncated something or `after`
excluded a non-empty prefix; `hasNextPage` dually for `first`/`before`. -/
def paginate (S : List α) (args : ConnectionArgs) : Except PageError (Connection α) :=
  let pa := afterStep args.after (edgesFrom 0 S)
  let pb := beforeStep args.before pa.1
  (applyFirst args.first pb.1).bind (fun pf =>
    Except.map (fun pl =>
        Connection.mk pl.1
          (PageInfo.mk (decide (0 < pb.2) || pf.2) (decide (0 < pa.2) || pl.2)))
      (applyLast args.last pf.1))

/-- Embedded from `src/index.js` (`VideoConnection.totalCount.resolve`):
the resolver counts the edges of the connection it is handed. -/
def totalCount (conn : Connection α) : Nat := conn.edges.length

theorem edgesFrom_length (off : Nat) (S : List α) :
    (edgesFrom off S).length = S.length := by
  induction S generalizing off with
  | nil => rfl
  | cons x xs ih => simp [edgesFrom, ih]

theorem edgesFrom_map_node (off : Nat) (S : List α) :
    (edgesFrom off S).map Edge.node = S := by
  induction S generalizing off with
  | nil => rfl
  | cons x xs ih => simp [edgesFrom, ih]

theorem matchIdx_lt {c : String} :
    ∀ {es : List (Edge α)} {j : Nat}, matchIdx c es = some j → j < es.length := by
  intro es
  induction es with
  | nil => intro j h; simp [matchIdx] at h
  | cons e es ih =>
    intro j h
    by_cases hc : e.cursor = c
    · simp only [matchIdx, if_pos hc] at h
      injection h with h
      subst h
      simp
    · simp only [matchIdx, if_neg hc] at h
      match hm : matchIdx c es with
      | none => rw [hm] at h; simp at h
      | some j' =>
        rw [hm] at h
        simp only [Option.map_some'] at h
        injection h with h
        subst h
        have := ih hm
        simp
        omega

/-- Offset in the full edge list where the retained window starts after
the `after` step (claim side of the refinement). -/
def windowAfterStart (S : List α) (args : ConnectionArgs) : Nat :=
  match args.after with
  | none => 0
  | some c =>
    match matchIdx c (edgesFrom 0 S) with
    | some j => j + 1
    | none => 0

/-- Offset in the full edge list where the retained window ends after
the `before` step. -/
def windowBeforeEnd (S : List α) (args : ConnectionArgs) : Nat :=
  match args.before with
  | none => S.length
  | some c =>
    match matchIdx c ((edgesFrom 0 S).drop (windowAfterStart S args)) with
    | some j => windowAfterStart S args + j
    | none => S.length

/-- Offset where the retained window ends after the `first` step. -/
def windowFirstEnd (S : List α) (args : ConnectionArgs) : Nat :=
  match args.first with
  | none => windowBeforeEnd S args
  | some n => min (windowBeforeEnd S args) (windowAfterStart S args + n.toNat)

/-- Offset where the retained window finally starts, after `last`. -/
def windowStart (S : List α) (args : ConnectionArgs) : Nat :=
  match args.last with
  | none => windowAfterStart S args
  | some n => max (windowAfterStart S args) (windowFirstEnd S args - n.toNat)

theorem windowAfterStart_none (S : List α) (args : ConnectionArgs)
    (h : args.after = none) : windowAfterStart S args = 0 := by
  simp [windowAfterStart, h]

theorem windowAfterStart_found (S : List α) (args : ConnectionArgs) {c : String}
    {j : Nat} (h : args.after = some c) (hm : matchIdx c (edgesFrom 0 S) = some j) :
    windowAfterStart S args = j + 1 := by
  simp [windowAfterStart, h, hm]

theorem windowAfterStart_notfound (S : List α) (args : ConnectionArgs) {c : String}
    (h : args.after = some c) (hm : matchIdx c (edgesFrom 0 S) = none) :
    windowAfterStart S args = 0 := by
  simp [windowAfterStart, h, hm]

theorem windowBeforeEnd_none (S : List α) (args : ConnectionArgs)
    (h : args.before = none) : windowBeforeEnd S args = S.length := by
  simp [windowBeforeEnd, h]

theorem windowBeforeEnd_found (S : List α) (args : ConnectionArgs) {c : String}
    {j : Nat} (h : args.before = some c)
    (hm : matchIdx c ((edgesFrom 0 S).drop (windowAfterStart S args)) = some j) :
    windowBeforeEnd S args = windowAfterStart S args + j := by
  simp [windowBeforeEnd, h, hm]

theorem windowBeforeEnd_notfound (S : List α) (args : ConnectionArgs) {c : String}
    (h : args.before = some c)
    (hm : matchIdx c ((edgesFrom 0 S).drop (windowAfterStart S args)) = none) :
    windowBeforeEnd S args = S.length := by
  simp [windowBeforeEnd, h, hm]

theorem windowFirstEnd_none (S : List α) (args : ConnectionArgs)
    (h : args.first = none) : windowFirstEnd S args = windowBeforeEnd S args := by
  simp [windowFirstEnd, h]

theorem windowFirstEnd_some (S : List α) (args : ConnectionArgs) {n : Int}
    (h : args.first = some n) :
    windowFirstEnd S args =
      min (windowBeforeEnd S args) (windowAfterStart S args + n.toNat) := by
  simp [windowFirstEnd, h]

theorem windowStart_none (S : List α) (args : ConnectionArgs)
    (h : args.last = none) : windowStart S args = windowAfterStart S args := by
  simp [windowStart, h]

theorem windowStart_some (S : List α) (args : ConnectionArgs) {n : Int}
    (h : args.last = some n) :
    windowStart S args =
      max (windowAfterStart S args) (windowFirstEnd S args - n.toNat) := by
  simp [windowStart, h]

theorem windowAfterStart_le (S : List α) (args : ConnectionArgs) :
    windowAfterStart S args ≤ S.length := by
  cases ha : args.after with
  | none => simp [windowAfterStart, ha]
  | some c =>
    simp only [windowAfterStart, ha]
    cases hm : matchIdx c (edgesFrom 0 S) with
    | none => simp
    | some j =>
      have := matchIdx_lt hm
      rw [edgesFrom_length] at this
      simp
      omega

theorem windowBeforeEnd_ge (S : List α) (args : ConnectionArgs) :
    windowAfterStart S args ≤ windowBeforeEnd S args := by
  cases hb : args.before with
  | none => simp [windowBeforeEnd, hb, windowAfterStart_le S args]
  | some c =>
    simp only [windowBeforeEnd, hb]
    cases hm : matchIdx c ((edgesFrom 0 S).drop (windowAfterStart S args)) with
    | none => simp [windowAfterStart_le S args]
    | some j => simp

theorem windowBeforeEnd_le (S : List α) (args : ConnectionArgs) :
    windowBeforeEnd S args ≤ S.length := by
  cases hb : args.before with
  | none => simp [windowBeforeEnd, hb]
  | some c =>
    simp only [windowBeforeEnd, hb]
    cases hm : matchIdx c ((edgesFrom 0 S).drop (windowAfterStart S args)) with
    | none => simp
    | some j =>
      have := matchIdx_lt hm
      rw [List.length_drop, edgesFrom_length] at this
      simp
      omega

theorem windowFirstEnd_ge (S : List α) (args : ConnectionArgs) :
    windowAfterStart S args ≤ windowFirstEnd S args := by
  have h1 := windowBeforeEnd_ge S args
  cases hf : args.first with
  | none => simpa [windowFirstEnd, hf] using h1
  | some n =>
    simp only [windowFirstEnd, hf]
    omega

theorem windowFirstEnd_le (S : List α) (args : ConnectionArgs) :
    windowFirstEnd S args ≤ windowBeforeEnd S args := by
  cases hf : args.first with
  | none => simp [windowFirstEnd, hf]
  | some n =>
    simp only [windowFirstEnd, hf]
    omega

theorem windowStart_ge (S : List α) (args : ConnectionArgs) :
    windowAfterStart S args ≤ windowStart S args := by
  cases hl : args.last with
  | none => simp [windowStart, hl]
  | some n =>
    simp only [windowStart, hl]
    omega

theorem windowStart_le (S : List α) (args : ConnectionArgs) :
    windowStart S args ≤ windowFirstEnd S args := by
  have h1 := windowFirstEnd_ge S args
  cases hl : args.last with
  | none => simpa [windowStart, hl] using h1
  | some n =>
    simp only [windowStart, hl]
    omega

theorem except_bind_ok {ε α β : Type} (a : α) (f : α → Except ε β) :
    (Except.ok a : Except ε α).bind f = f a := rfl

theorem except_map_ok {ε α β : Type} (f : α → β) (a : α) :
    Except.map f (Except.ok a : Except ε α) = .ok (f a) := rfl

theorem afterStage (S : List α) (args : ConnectionArgs) :
    afterStep args.after (edgesFrom 0 S) =
      ((edgesFrom 0 S).drop (windowAfterStart S args), windowAfterStart S args) := by
  cases ha : args.after with
  | none => simp [afterStep, windowAfterStart, ha]
  | some c =>
    simp only [afterStep, windowAfterStart, ha, applyAfter]
    cases hm : matchIdx c (edgesFrom 0 S) with
    | none => simp
    | some j => simp

theorem beforeStage (S : List α) (args : ConnectionArgs) :
    beforeStep args.before ((edgesFrom 0 S).drop (windowAfterStart S args)) =
      (((edgesFrom 0 S).drop (windowAfterStart S args)).take
          (windowBeforeEnd S args - windowAfterStart S args),
        S.length - windowBeforeEnd S args) := by
  have haSle := windowAfterStart_le S args
  have hlen : ((edgesFrom 0 S).drop (windowAfterStart S args)).length =
      S.length - windowAfterStart S args := by
    rw [List.length_drop, edgesFrom_length]
  cases hb : args.before with
  | none =>
    rw [windowBeforeEnd_none S args hb]
    rw [List.take_of_length_le (le_of_eq hlen)]
    simp [beforeStep]
  | some c =>
    cases hm : matchIdx c ((edgesFrom 0 S).drop (windowAfterStart S args)) with
    | none =>
      rw [windowBeforeEnd_notfound S args hb hm]
      rw [List.take_of_length_le (le_of_eq hlen)]
      simp [beforeStep, applyBefore, hm]
    | some j =>
      have hj := matchIdx_lt hm
      rw [hlen] at hj
      rw [windowBeforeEnd_found S args hb hm]
      simp only [beforeStep, applyBefore, hm]
      rw [hlen]
      simp only [Prod.mk.injEq]
      constructor
      · congr 1
        omega
      · omega

theorem firstStage (S : List α) (args : ConnectionArgs)
    (hf : ∀ n, args.first = some n → 0 ≤ n) :
    applyFirst args.first
        (((edgesFrom 0 S).drop (windowAfterStart S args)).take
          (windowBeforeEnd S args - windowAfterStart S args)) =
      .ok ((((edgesFrom 0 S).drop (windowAfterStart S args)).take
          (windowFirstEnd S args - windowAfterStart S args)),
        decide (windowFirstEnd S args < windowBeforeEnd S args)) := by
  have haSle := windowAfterStart_le S args
  have hbE1 := windowBeforeEnd_ge S args
  have hbE2 := windowBeforeEnd_le S args
  cases hfa : args.first with
  | none =>
    simp only [applyFirst, windowFirstEnd, hfa]
    simp
  | some n =>
    have hn := hf n hfa
    simp only [applyFirst, windowFirstEnd, hfa]
    rw [if_neg (by omega : ¬ n < 0)]
    simp only [Except.ok.injEq, Prod.mk.injEq]
    constructor
    · rw [List.take_take]
      congr 1
      omega
    · rw [List.length_take, List.length_drop, edgesFrom_length]
      rw [decide_eq_decide]
      omega

theorem lastStage (S : List α) (args : ConnectionArgs)
    (hl : ∀ n, args.last = some n → 0 ≤ n) :
    applyLast args.last
        (((edgesFrom 0 S).drop (windowAfterStart S args)).take
          (windowFirstEnd S args - windowAfterStart S args)) =
      .ok ((((edgesFrom 0 S).drop (windowStart S args)).take
          (windowFirstEnd S args - windowStart S args)),
        decide (windowAfterStart S args < windowStart S args)) := by
  have haSle := windowAfterStart_le S args
  have hfE1 := windowFirstEnd_ge S args
  have hfE2 : windowFirstEnd S args ≤ S.length :=
    le_trans (windowFirstEnd_le S args) (windowBeforeEnd_le S args)
  have hLlen : (((edgesFrom 0 S).drop (windowAfterStart S args)).take
      (windowFirstEnd S args - windowAfterStart S args)).length =
      windowFirstEnd S args - windowAfterStart S args := by
    rw [List.length_take, List.length_drop, edgesFrom_length]
    omega
  cases hla : args.last with
  | none =>
    simp only [applyLast, windowStart, hla]
    simp
  | some n =>
    have hn := hl n hla
    simp only [applyLast, windowStart, hla]
    rw [if_neg (by omega : ¬ n < 0)]
    rw [hLlen]
    simp only [Except.ok.injEq, Prod.mk.injEq]
    constructor
    · rw [List.drop_take, List.drop_drop]
      congr 1
      · omega
      · congr 1
        omega
    · rw [decide_eq_decide]
      omega

/-- Refinement of the whole pager: for non-negative (or absent) `first`
and `last`, `paginate` returns the contiguous window of the full edge
enumeration between `windowStart` and `windowFirstEnd`, with
`hasNextPage` true exactly when edges lie beyond the window's end and
`hasPreviousPage` true exactly when edges lie before its start. -/
theorem paginate_window (S : List α) (args : ConnectionArgs)
    (hf : ∀ n, args.first = some n → 0 ≤ n)
    (hl : ∀ n, args.last = some n → 0 ≤ n) :
    paginate S args = .ok (Connection.mk
      (((edgesFrom 0 S).drop (windowStart S args)).take
        (windowFirstEnd S args - windowStart S args))
      (PageInfo.mk (decide (windowFirstEnd S args < S.length))
        (decide (0 < windowStart S args)))) := by
  have hbE2 := windowBeforeEnd_le S args
  have hfEbE := windowFirstEnd_le S args
  have haS0 : 0 ≤ windowAfterStart S args := Nat.zero_le _
  have haSlS := windowStart_ge S args
  simp only [paginate]
  rw [afterStage]
  dsimp only
  rw [beforeStage]
  dsimp only
  rw [firstStage S args hf]
  rw [except_bind_ok]
  dsimp only
  rw [lastStage S args hl]
  rw [except_map_ok]
  dsimp only
  have h1 : (decide (0 < S.length - windowBeforeEnd S args) ||
      decide (windowFirstEnd S args < windowBeforeEnd S args)) =
      decide (windowFirstEnd S args < S.length) := by
    rw [← Bool.decide_or, decide_eq_decide]
    omega
  have h2 : (decide (0 < windowAfterStart S args) ||
      decide (windowAfterStart S args < windowStart S args)) =
      decide (0 < windowStart S args) := by
    rw [← Bool.decide_or, decide_eq_decide]
    omega
  rw [h1, h2]

theorem except_bind_err {ε α β : Type} (e : ε) (f : α → Except ε β) :
    (Except.error e : Except ε α).bind f = .error e := rfl

theorem except_map_err {ε α β : Type} (f : α → β) (e : ε) :
    Except.map f (Except.error e : Except ε α) = .error e := rfl

theorem paginate_negative (S : List α) (args : ConnectionArgs)
    (h : (∃ n, args.first = some n ∧ n < 0) ∨ (∃ n, args.last = some n ∧ n < 0)) :
    paginate S args = .error .invalidArgument := by
  simp only [paginate]
  rcases h with ⟨n, hn, hneg⟩ | ⟨n, hn, hneg⟩
  · rw [hn]
    simp [applyFirst, hneg, except_bind_err]
  · cases hfa : args.first with
    | none =>
      simp only [applyFirst, except_bind_ok]
      rw [hn]
      simp [applyLast, hneg, except_map_err]
    | some m =>
      by_cases hm : m < 0
      · simp [applyFirst, hm, except_bind_err]
      · simp only [applyFirst, if_neg hm, except_bind_ok]
        rw [hn]
        simp [applyLast, hneg, except_map_err]

theorem paginate_ok_nonneg {S : List α} {args : ConnectionArgs} {conn : Connection α}
    (h : paginate S args = .ok conn) :
    (∀ n, args.first = some n → 0 ≤ n) ∧ (∀ n, args.last = some n → 0 ≤ n) := by
  constructor
  · intro n hn
    by_contra hneg
    push_neg at hneg
    rw [paginate_negative S args (Or.inl ⟨n, hn, hneg⟩)] at h
    simp at h
  · intro n hn
    by_contra hneg
    push_neg at hneg
    rw [paginate_negative S args (Or.inr ⟨n, hn, hneg⟩)] at h
    simp at h

theorem matchIdx_edgesFrom_found :
    ∀ (S : List α) (off k : Nat), k < S.length →
      matchIdx (offsetCursor (off + k)) (edgesFrom off S) = some k := by
  intro S
  induction S with
  | nil => intro off k hk; simp at hk
  | cons x xs ih =>
    intro off k hk
    cases k with
    | zero =>
      simp [edgesFrom, matchIdx]
    | succ k' =>
      have hne : ¬ (offsetCursor off = offsetCursor (off + (k' + 1))) := by
        intro hc
        have := offsetCursor_injective hc
        omega
      simp only [edgesFrom, matchIdx, if_neg hne]
      have he : off + (k' + 1) = (off + 1) + k' := by omega
      rw [he, ih (off + 1) k' (by simpa using hk)]
      rfl

theorem matchIdx_edgesFrom_notfound :
    ∀ (S : List α) (off : Nat) (c : String),
      (∀ i, i < S.length → c ≠ offsetCursor (off + i)) →
      matchIdx c (edgesFrom off S) = none := by
  intro S
  induction S with
  | nil => intro off c hc; rfl
  | cons x xs ih =>
    intro off c hc
    have h0 : ¬ (offsetCursor off = c) := by
      intro hcc
      exact hc 0 (by simp) (by simpa using hcc.symm)
    simp only [edgesFrom, matchIdx, if_neg h0]
    rw [ih (off + 1) c]
    · rfl
    · intro i hi
      have := hc (i + 1) (by simpa using hi)
      have he : off + (i + 1) = (off + 1) + i := by omega
      rwa [he] at this

theorem take_min_self (l : List α) (n : Nat) :
    l.take (min l.length n) = l.take n := by
  rcases Nat.le_total l.length n with h | h
  · rw [Nat.min_eq_left h, List.take_length, List.take_of_length_le h]
  · rw [Nat.min_eq_right h]

theorem paginate_firstOnly (S : List α) (n : Nat) :
    paginate S (ConnectionArgs.mk (some (Int.ofNat n)) none none none) =
      .ok (Connection.mk ((edgesFrom 0 S).take n)
        (PageInfo.mk (decide (n < S.length)) false)) := by
  have hf : ∀ m : Int,
      (ConnectionArgs.mk (some (Int.ofNat n)) none none none).first = some m → 0 ≤ m := by
    intro m hm
    have h1 : some (Int.ofNat n) = some m := hm
    injection h1 with h1
    rw [← h1]
    exact Int.ofNat_nonneg n
  have hl : ∀ m : Int,
      (ConnectionArgs.mk (some (Int.ofNat n)) none none none).last = some m → 0 ≤ m := by
    intro m hm
    exact absurd (show (none : Option Int) = some m from hm) (by simp)
  have hw := paginate_window S (ConnectionArgs.mk (some (Int.ofNat n)) none none none) hf hl
  have haS : windowAfterStart S (ConnectionArgs.mk (some (Int.ofNat n)) none none none) = 0 :=
    windowAfterStart_none S _ rfl
  have hbE : windowBeforeEnd S (ConnectionArgs.mk (some (Int.ofNat n)) none none none) =
      S.length := windowBeforeEnd_none S _ rfl
  have hfE : windowFirstEnd S (ConnectionArgs.mk (some (Int.ofNat n)) none none none) =
      min S.length n := by
    rw [windowFirstEnd_some S _ rfl, hbE, haS]
    simp
  have hlS : windowStart S (ConnectionArgs.mk (some (Int.ofNat n)) none none none) = 0 := by
    rw [windowStart_none S _ rfl, haS]
  rw [hw, hfE, hlS]
  congr 1
  congr 1
  · rw [List.drop_zero, Nat.sub_zero, ← edgesFrom_length 0 S, take_min_self]
  · congr 1
    rw [decide_eq_decide]
    omega

theorem paginate_lastOnly (S : List α) (n : Nat) :
    paginate S (ConnectionArgs.mk none (some (Int.ofNat n)) none none) =
      .ok (Connection.mk ((edgesFrom 0 S).drop (S.length - n))
        (PageInfo.mk false (decide (n < S.length)))) := by
  have hf : ∀ m : Int,
      (ConnectionArgs.mk none (some (Int.ofNat n)) none none).first = some m → 0 ≤ m := by
    intro m hm
    exact absurd (show (none : Option Int) = some m from hm) (by simp)
  have hl : ∀ m : Int,
      (ConnectionArgs.mk none (some (Int.ofNat n)) none none).last = some m → 0 ≤ m := by
    intro m hm
    have h1 : some (Int.ofNat n) = some m := hm
    injection h1 with h1
    rw [← h1]
    exact Int.ofNat_nonneg n
  have hw := paginate_window S (ConnectionArgs.mk none (some (Int.ofNat n)) none none) hf hl
  have haS : windowAfterStart S (ConnectionArgs.mk none (some (Int.ofNat n)) none none) = 0 :=
    windowAfterStart_none S _ rfl
  have hbE : windowBeforeEnd S (ConnectionArgs.mk none (some (Int.ofNat n)) none none) =
      S.length := windowBeforeEnd_none S _ rfl
  have hfE : windowFirstEnd S (ConnectionArgs.mk none (some (Int.ofNat n)) none none) =
      S.length := by
    rw [windowFirstEnd_none S _ rfl, hbE]
  have hlS : windowStart S (ConnectionArgs.mk none (some (Int.ofNat n)) none none) =
      S.length - n := by
    rw [windowStart_some S _ rfl, hfE, haS]
    simp
  rw [hw, hfE, hlS]
  congr 1
  congr 1
  · rw [List.take_of_length_le
      (le_of_eq (by rw [List.length_drop, edgesFrom_length]))]
  · congr 1
    · simp
    · rw [decide_eq_decide]
      omega

theorem paginate_afterFound (S : List α) (k : Nat) (hk : k < S.length) :
    paginate S (ConnectionArgs.mk none none (some (offsetCursor k)) none) =
      .ok (Connection.mk ((edgesFrom 0 S).drop (k + 1)) (PageInfo.mk false true)) := by
  have hf : ∀ m : Int,
      (ConnectionArgs.mk none none (some (offsetCursor k)) none).first = some m → 0 ≤ m := by
    intro m hm
    exact absurd (show (none : Option Int) = some m from hm) (by simp)
  have hl : ∀ m : Int,
      (ConnectionArgs.mk none none (some (offsetCursor k)) none).last = some m → 0 ≤ m := by
    intro m hm
    exact absurd (show (none : Option Int) = some m from hm) (by simp)
  have hmi : matchIdx (offsetCursor k) (edgesFrom 0 S) = some k := by
    have := matchIdx_edgesFrom_found S 0 k hk
    rwa [Nat.zero_add] at this
  have hw := paginate_window S (ConnectionArgs.mk none none (some (offsetCursor k)) none) hf hl
  have haS : windowAfterStart S (ConnectionArgs.mk none none (some (offsetCursor k)) none) =
      k + 1 := windowAfterStart_found S _ rfl hmi
  have hbE : windowBeforeEnd S (ConnectionArgs.mk none none (some (offsetCursor k)) none) =
      S.length := windowBeforeEnd_none S _ rfl
  have hfE : windowFirstEnd S (ConnectionArgs.mk none none (some (offsetCursor k)) none) =
      S.length := by
    rw [windowFirstEnd_none S _ rfl, hbE]
  have hlS : windowStart S (ConnectionArgs.mk none none (some (offsetCursor k)) none) =
      k + 1 := by
    rw [windowStart_none S _ rfl, haS]
  rw [hw, hfE, hlS]
  congr 1
  congr 1
  · rw [List.take_of_length_le
      (le_of_eq (by rw [List.length_drop, edgesFrom_length]))]
  · congr 1
    · simp
    · simp

theorem paginate_afterNone (S : List α) (c : String)
    (hc : ∀ i, i < S.length → c ≠ offsetCursor i) :
    paginate S (ConnectionArgs.mk none none (some c) none) =
      .ok (Connection.mk (edgesFrom 0 S) (PageInfo.mk false false)) := by
  have hf : ∀ m : Int,
      (ConnectionArgs.mk none none (some c) none).first = some m → 0 ≤ m := by
    intro m hm
    exact absurd (show (none : Option Int) = some m from hm) (by simp)
  have hl : ∀ m : Int,
      (ConnectionArgs.mk none none (some c) none).last = some m → 0 ≤ m := by
    intro m hm
    exact absurd (show (none : Option Int) = some m from hm) (by simp)
  have hmi : matchIdx c (edgesFrom 0 S) = none := by
    apply matchIdx_edgesFrom_notfound S 0 c
    intro i hi
    rw [Nat.zero_add]
    exact hc i hi
  have hw := paginate_window S (ConnectionArgs.mk none none (some c) none) hf hl
  have haS : windowAfterStart S (ConnectionArgs.mk none none (some c) none) = 0 :=
    windowAfterStart_notfound S _ rfl hmi
  have hbE : windowBeforeEnd S (ConnectionArgs.mk none none (some c) none) = S.length :=
    windowBeforeEnd_none S _ rfl
  have hfE : windowFirstEnd S (ConnectionArgs.mk none none (some c) none) = S.length := by
    rw [windowFirstEnd_none S _ rfl, hbE]
  have hlS : windowStart S (ConnectionArgs.mk none none (some c) none) = 0 := by
    rw [windowStart_none S _ rfl, haS]
  rw [hw, hfE, hlS]
  congr 1
  congr 1
  · rw [List.drop_zero, Nat.sub_zero,
      List.take_of_length_le (le_of_eq (edgesFrom_length 0 S))]
  · simp

/-! ## The claims -/

/-- C1 (counterexample): `totalCount` as embedded from `src/index.js`
counts the edges of the connection it receives, which is the sliced
edge list: for the two-element sequence `[0, 1]` with `first = 1` the
served total count is `1`, not the full length `2` the claim demands. -/
theorem claimC1_counterexample :
    (paginate ([0, 1] : List Nat) (ConnectionArgs.mk (some 1) none none none)).map
        totalCount = .ok 1 ∧
    (paginate ([0, 1] : List Nat) (ConnectionArgs.mk (some 1) none none none)).map
        totalCount ≠ .ok (([0, 1] : List Nat).length) := by
  have hv : (paginate ([0, 1] : List Nat)
      (ConnectionArgs.mk (some 1) none none none)).map totalCount = .ok 1 := rfl
  refine ⟨hv, ?_⟩
  rw [hv]
  intro hcontra
  exact absurd (Except.ok.inj hcontra) (by decide)

/-- C1 (amended): the `totalCount` field served for a paginated
connection equals the number of edges retained after slicing — under
`first = n` or `last = n` that is `min n (len S)` — rather than the
length of the full unsliced sequence. -/
theorem claimC1_amended {α : Type} :
    (∀ (S : List α) (n : Nat),
        (paginate S (ConnectionArgs.mk (some (Int.ofNat n)) none none none)).map
          totalCount = .ok (min n S.length)) ∧
    (∀ (S : List α) (n : Nat),
        (paginate S (ConnectionArgs.mk none (some (Int.ofNat n)) none none)).map
          totalCount = .ok (min n S.length)) := by
  constructor
  · intro S n
    rw [paginate_firstOnly S n, except_map_ok]
    congr 1
    show ((edgesFrom 0 S).take n).length = min n S.length
    rw [List.length_take, edgesFrom_length]
  · intro S n
    rw [paginate_lastOnly S n, except_map_ok]
    congr 1
    show ((edgesFrom 0 S).drop (S.length - n)).length = min n S.length
    rw [List.length_drop, edgesFrom_length]
    omega

/-- C2: for every sequence and pagination arguments on which `paginate`
succeeds, the connection's edges are the contiguous window of the full
edge enumeration between `windowStart` and `windowFirstEnd`, and
`hasPreviousPage` is true exactly when edges existed before that
retained window: either `last` truncated a non-empty prefix
(`windowAfterStart < windowStart`) or the `after` cursor excluded a
non-empty prefix (`0 < windowAfterStart`). -/
theorem claimC2 {α : Type} (S : List α) (args : ConnectionArgs) (conn : Connection α)
    (h : paginate S args = .ok conn) :
    (conn.pageInfo.hasPreviousPage = true ↔
        (windowAfterStart S args < windowStart S args ∨
          0 < windowAfterStart S args)) ∧
      conn.edges =
        ((edgesFrom 0 S).drop (windowStart S args)).take
          (windowFirstEnd S args - windowStart S args) := by
  obtain ⟨hf, hl⟩ := paginate_ok_nonneg h
  have hw := paginate_window S args hf hl
  rw [hw] at h
  have hc := Except.ok.inj h
  subst hc
  constructor
  · have hge := windowStart_ge S args
    show decide (0 < windowStart S args) = true ↔ _
    rw [decide_eq_true_iff]
    omega
  · rfl

/-- C2 (witness): on `[1, 2, 3]` with `last = 2`, pagination succeeds
and `hasPreviousPage` is characterised by the window arithmetic. -/
theorem claimC2_witness :
    ∃ conn : Connection Nat,
      paginate [1, 2, 3] (ConnectionArgs.mk none (some 2) none none) = .ok conn ∧
      (conn.pageInfo.hasPreviousPage = true ↔
        (windowAfterStart [1, 2, 3] (ConnectionArgs.mk none (some 2) none none) <
            windowStart [1, 2, 3] (ConnectionArgs.mk none (some 2) none none) ∨
          0 < windowAfterStart [1, 2, 3] (ConnectionArgs.mk none (some 2) none none))) :=
  ⟨_, rfl, (claimC2 [1, 2, 3] (ConnectionArgs.mk none (some 2) none none) _ rfl).1⟩

/-- C3 (counterexample): the encoding joins type name and local id with
`:` and splits at the first `:`, so the pairs `("a:b", "c")` and
`("a", "b:c")` collide, and decoding the encoding of `("a:b", "c")`
yields `("a", "b:c")`, not the original pair. -/
theorem claimC3_counterexample :
    toGlobalId "a:b" "c" = toGlobalId "a" "b:c" ∧
    fromGlobalId (toGlobalId "a:b" "c") = .ok ("a", "b:c") ∧
    fromGlobalId (toGlobalId "a:b" "c") ≠ .ok ("a:b", "c") := by
  have hv : fromGlobalId (toGlobalId "a:b" "c") = .ok ("a", "b:c") := rfl
  refine ⟨rfl, hv, ?_⟩
  rw [hv]
  intro hcontra
  have h2 := Except.ok.inj hcontra
  have h3 : ("a" : String) = "a:b" := congrArg Prod.fst h2
  exact absurd h3 (by decide)

/-- C3 (amended): for every pair whose type name contains no `:`
separator, decoding inverts encoding exactly, and the encoding is
injective on such pairs. -/
theorem claimC3_amended (t i : String) (h : ':' ∉ t.data) :
    fromGlobalId (toGlobalId t i) = .ok (t, i) ∧
    (∀ t' i' : String, ':' ∉ t'.data →
      toGlobalId t i = toGlobalId t' i' → t = t' ∧ i = i') := by
  refine ⟨fromGlobalId_toGlobalId t i h, ?_⟩
  intro t' i' h' heq
  have h1 := fromGlobalId_toGlobalId t i h
  have h2 := fromGlobalId_toGlobalId t' i' h'
  rw [heq, h2] at h1
  have h3 := Except.ok.inj h1
  exact ⟨(congrArg Prod.fst h3).symm, (congrArg Prod.snd h3).symm⟩

/-- C3 (witness): the colon-free pair `("Video", "123")` round-trips. -/
theorem claimC3_witness :
    fromGlobalId (toGlobalId "Video" "123") = .ok ("Video", "123") :=
  (claimC3_amended "Video" "123" (by decide)).1

/-- C4: decoding is total with a typed failure: every string either
decodes to the typed `MalformedIdentifier` error or lies in the image of
the encoder (and in the latter case no fault is raised either). -/
theorem claimC4 (s : String) :
    fromGlobalId s = .error IdError.malformedIdentifier ∨
      ∃ t i : String, s = toGlobalId t i := by
  cases hf : fromGlobalId s with
  | error e =>
    cases e
    exact Or.inl rfl
  | ok p =>
    right
    exact ⟨p.1, p.2, fromGlobalId_ok (by rw [hf])⟩

/-- C5: `paginate` with `first = n` keeps exactly `min n (len S)` edges,
and their nodes are the first elements of the sequence in order. -/
theorem claimC5 {α : Type} (S : List α) (n : Nat) :
    ∃ conn, paginate S (ConnectionArgs.mk (some (Int.ofNat n)) none none none) =
        .ok conn ∧
      conn.edges.map Edge.node = S.take n ∧
      conn.edges.length = min n S.length := by
  refine ⟨_, paginate_firstOnly S n, ?_, ?_⟩
  · show ((edgesFrom 0 S).take n).map Edge.node = S.take n
    rw [List.map_take, edgesFrom_map_node]
  · show ((edgesFrom 0 S).take n).length = min n S.length
    rw [List.length_take, edgesFrom_length]

/-- C6: `paginate` with `last = n` keeps the last `min n (len S)`
elements of the sequence, in their original order. -/
theorem claimC6 {α : Type} (S : List α) (n : Nat) :
    ∃ conn, paginate S (ConnectionArgs.mk none (some (Int.ofNat n)) none none) =
        .ok conn ∧
      conn.edges.map Edge.node = S.drop (S.length - n) ∧
      conn.edges.length = min n S.length := by
  refine ⟨_, paginate_lastOnly S n, ?_, ?_⟩
  · show ((edgesFrom 0 S).drop (S.length - n)).map Edge.node = S.drop (S.length - n)
    rw [List.map_drop, edgesFrom_map_node]
  · show ((edgesFrom 0 S).drop (S.length - n)).length = min n S.length
    rw [List.length_drop, edgesFrom_length]
    omega

/-- C7: any negative `first` or `last` makes `paginate` fail with the
typed `InvalidArgument` error instead of returning a connection. -/
theorem claimC7 {α : Type} (S : List α) (args : ConnectionArgs)
    (h : (∃ n, args.first = some n ∧ n < 0) ∨ (∃ n, args.last = some n ∧ n < 0)) :
    paginate S args = .error PageError.invalidArgument :=
  paginate_negative S args h

/-- C7 (witness): `first = -1` and `last = -1` each yield
`InvalidArgument` on the one-element sequence `[5]`. -/
theorem claimC7_witness :
    paginate ([5] : List Nat) (ConnectionArgs.mk (some (-1)) none none none) =
        .error PageError.invalidArgument ∧
    paginate ([5] : List Nat) (ConnectionArgs.mk none (some (-1)) none none) =
        .error PageError.invalidArgument :=
  ⟨claimC7 [5] _ (Or.inl ⟨-1, rfl, by decide⟩),
   claimC7 [5] _ (Or.inr ⟨-1, rfl, by decide⟩)⟩

/-- C8: passing the cursor of the edge at offset `k` as `after` yields
exactly the edges strictly following position `k`, in order; and a
string that matches no current edge's cursor (malformed ones included)
drops nothing and raises no error. -/
theorem claimC8 {α : Type} :
    (∀ (S : List α) (k : Nat), k < S.length →
      ∃ conn, paginate S (ConnectionArgs.mk none none (some (offsetCursor k)) none) =
          .ok conn ∧
        conn.edges = (edgesFrom 0 S).drop (k + 1) ∧
        conn.edges.map Edge.node = S.drop (k + 1)) ∧
    (∀ (S : List α) (c : String), (∀ k, k < S.length → c ≠ offsetCursor k) →
      ∃ conn, paginate S (ConnectionArgs.mk none none (some c) none) = .ok conn ∧
        conn.edges = edgesFrom 0 S) := by
  constructor
  · intro S k hk
    refine ⟨_, paginate_afterFound S k hk, rfl, ?_⟩
    show ((edgesFrom 0 S).drop (k + 1)).map Edge.node = S.drop (k + 1)
    rw [List.map_drop, edgesFrom_map_node]
  · intro S c hc
    exact ⟨_, paginate_afterNone S c hc, rfl⟩

/-- C8 (witness): on `[10, 20, 30]`, `after` = cursor of offset 1 keeps
exactly the nodes after position 1, and a nonsense cursor keeps the
whole edge list without error. -/
theorem claimC8_witness :
    (∃ conn, paginate ([10, 20, 30] : List Nat)
        (ConnectionArgs.mk none none (some (offsetCursor 1)) none) = .ok conn ∧
      conn.edges.map Edge.node = [30]) ∧
    (∃ conn, paginate ([10, 20, 30] : List Nat)
        (ConnectionArgs.mk none none (some "nonsense") none) = .ok conn ∧
      conn.edges = edgesFrom 0 [10, 20, 30]) := by
  constructor
  · obtain ⟨conn, h1, _, h3⟩ := claimC8.1 ([10, 20, 30] : List Nat) 1 (by decide)
    refine ⟨conn, h1, ?_⟩
    rw [h3]
    rfl
  · obtain ⟨conn, h1, h2⟩ := claimC8.2 ([10, 20, 30] : List Nat) "nonsense" (by decide)
    exact ⟨conn, h1, h2⟩

/-- C9: for every global id that decodes to `(t, i)`, the repository's
`idFetcher` delegates to the store with the lower-cased type name and
the local id, and when the store finds nothing the result is a
successful `none`, not an error. -/
theorem claimC9 (store : String → String → Option Entity) (g t i : String)
    (h : fromGlobalId g = .ok (t, i)) :
    idFetcher store g = .ok (store t.toLower i) ∧
      (store t.toLower i = none → idFetcher store g = .ok none) := by
  have hbase : idFetcher store g = .ok (store t.toLower i) := by
    unfold idFetcher
    rw [h]
  exact ⟨hbase, fun hn => by rw [hbase, hn]⟩

/-- C9 (witness): fetching the id of `("Video", "a")` against an empty
store succeeds with `none`. -/
theorem claimC9_witness :
    idFetcher (fun _ _ => none) (toGlobalId "Video" "a") = .ok none :=
  (claimC9 (fun _ _ => none) (toGlobalId "Video" "a") "Video" "a" rfl).2 rfl

/-- C10: the repository's `typeResolver` dispatches on JavaScript
truthiness of `title`, not field presence: it returns the Video tag
exactly when `title` is present and non-empty, and `null` both when the
field is absent and when it is present but the empty string. -/
theorem claimC10 (e : Entity) :
    (typeResolver e = some TypeTag.video ↔
        (e.title ≠ none ∧ e.title ≠ some "")) ∧
      (typeResolver e = none ↔ (e.title = none ∨ e.title = some "")) := by
  cases ht : e.title with
  | none => simp [typeResolver, jsTruthy, ht]
  | some s =>
    by_cases hs : s = ""
    · subst hs
      simp [typeResolver, jsTruthy, ht]
    · simp [typeResolver, jsTruthy, ht, hs]
